import Mathlib

/-!
Verification of the mocap channel-compression core (src/main.rs).

The embedding models Rust machine integers as `Int` with explicit wrapping
(`% 2^w`), `f64` samples as `ℚ`, and panicking operations (out-of-bounds
indexing, `unwrap`) as `Option`.
-/

set_option maxHeartbeats 1000000
set_option maxRecDepth 8000

/-! ### Configuration constants (src/main.rs:22-25) -/

def CHANNEL_QUANTIZATION_BITS : ℕ := 7

def CHANNEL_LPC_ORDER : ℕ := 1

def CHANNEL_LPC_COEFFICIENT_BITS : ℕ := 8

/-! ### Machine-integer casts -/

/-- Reinterpret the low 8 bits of an integer as a signed two's-complement
byte (`as i8`). -/
def toI8 (x : Int) : Int := (x + 128) % 256 - 128

/-- Reinterpret modulo 2^16 as a signed 16-bit value (`as i16`, wrapping). -/
def toI16 (x : Int) : Int := (x + 32768) % 65536 - 32768

/-- Reinterpret modulo 2^16 as an unsigned 16-bit value (`as u16` from an
integer type). -/
def toU16 (x : Int) : Int := x % 65536

/-- Arithmetic shift right on two's-complement integers: floor division
by `2 ^ k` (Rust `>>` on a signed integer). -/
def sar (x : Int) (k : ℕ) : Int := Int.fdiv x (2 ^ k)

/-! ### Fixed-point LPC predictor (src/main.rs:100-104 and 196-200) -/

/-- `((c << (8 - B)) as i8) >> (8 - B)`: sign-extension of a `B`-bit
coefficient stored in a `u8` (src/main.rs:102,198).  The `u8` shift wraps
modulo 256. -/
def signExtend (B : ℕ) (c : ℕ) : Int := sar (toI8 ((c * 2 ^ (8 - B)) % 256 : ℕ)) (8 - B)

/-- The prediction accumulation loop: for each tap, multiply the previous
value by the sign-extended coefficient and arithmetically shift right by
`B - 1`, summing the contributions (src/main.rs:100-104, 196-200). -/
def predictLpc (B : ℕ) (coeffs : List ℕ) (prev : List Int) : Int :=
  (List.zipWith (fun p c => sar (p * signExtend B c) (B - 1)) prev coeffs).sum

/-- One iteration of the encoder loop (src/main.rs:97-117): state is
`(previous_values, error, residuals)`.  The residual is computed in wrapping
`i16` arithmetic; the squared-error accumulator is `i64` in the source, which
cannot overflow for any `u32` frame count (|residual| < 2^15, so each square
is < 2^30 and the sum of fewer than 2^32 of them is < 2^62), so it is modelled
as an exact `Int`. -/
def encStep (B : ℕ) (coeffs : List ℕ) (st : List Int × Int × List Int) (v : Int) :
    List Int × Int × List Int :=
  let p := predictLpc B coeffs st.1
  let r := toI16 (toI16 v - toI16 p)
  (v :: st.1.dropLast, st.2.1 + r * r, st.2.2 ++ [r])

/-- The full encoder recurrence for one coefficient vector
(src/main.rs:93-117): zero-initialized window of length `O`, returning the
final `(previous_values, error, residuals)`. -/
def encodeLpc (B O : ℕ) (coeffs : List ℕ) (values : List Int) :
    List Int × Int × List Int :=
  values.foldl (encStep B coeffs) (List.replicate O 0, 0, [])

/-- One iteration of the decoder loop (src/main.rs:193-211): state is
`(previous_values, reconstructed values)`. -/
def decStep (B : ℕ) (coeffs : List ℕ) (st : List Int × List Int) (r : Int) :
    List Int × List Int :=
  let p := predictLpc B coeffs st.1
  let v := toU16 (toI16 (toI16 p + toI16 r))
  (v :: st.1.dropLast, st.2 ++ [v])

/-- The full decoder recurrence (src/main.rs:192-211): zero-initialized
window, reconstructing the quantized values from the residuals. -/
def decodeLpc (B O : ℕ) (coeffs : List ℕ) (residuals : List Int) : List Int :=
  (residuals.foldl (decStep B coeffs) (List.replicate O 0, [])).2

/-! ### Recursive presentations of the two recurrences (proof helpers) -/

def encResid (B : ℕ) (coeffs : List ℕ) : List Int → List Int → List Int
  | _, [] => []
  | w, v :: vs =>
    toI16 (toI16 v - toI16 (predictLpc B coeffs w)) :: encResid B coeffs (v :: w.dropLast) vs

def decVals (B : ℕ) (coeffs : List ℕ) : List Int → List Int → List Int
  | _, [] => []
  | w, r :: rs =>
    let v := toU16 (toI16 (toI16 (predictLpc B coeffs w) + toI16 r))
    v :: decVals B coeffs (v :: w.dropLast) rs

lemma encodeLpc_foldl_eq (B : ℕ) (coeffs : List ℕ) :
    ∀ (vs : List Int) (w : List Int) (e : Int) (acc : List Int),
      (vs.foldl (encStep B coeffs) (w, e, acc)).2.2 = acc ++ encResid B coeffs w vs := by
  intro vs
  induction vs with
  | nil => intro w e acc; simp [encResid]
  | cons v vs ih =>
    intro w e acc
    simp only [List.foldl_cons, encStep, encResid]
    rw [ih]
    simp

lemma decodeLpc_foldl_eq (B : ℕ) (coeffs : List ℕ) :
    ∀ (rs : List Int) (w : List Int) (acc : List Int),
      (rs.foldl (decStep B coeffs) (w, acc)).2 = acc ++ decVals B coeffs w rs := by
  intro rs
  induction rs with
  | nil => intro w acc; simp [decVals]
  | cons r rs ih =>
    intro w acc
    simp only [List.foldl_cons, decStep, decVals]
    rw [ih]
    simp

lemma encodeLpc_residuals (B O : ℕ) (coeffs : List ℕ) (values : List Int) :
    (encodeLpc B O coeffs values).2.2 = encResid B coeffs (List.replicate O 0) values := by
  unfold encodeLpc
  rw [encodeLpc_foldl_eq]
  simp

lemma decodeLpc_eq_decVals (B O : ℕ) (coeffs : List ℕ) (residuals : List Int) :
    decodeLpc B O coeffs residuals = decVals B coeffs (List.replicate O 0) residuals := by
  unfold decodeLpc
  rw [decodeLpc_foldl_eq]
  simp

/-- Decoding one step undoes encoding one step: the wrapping `i16`/`u16`
casts cancel for any `u16` value. -/
lemma cast_roundtrip (p v : Int) (h0 : 0 ≤ v) (h1 : v < 65536) :
    toU16 (toI16 (toI16 p + toI16 (toI16 (toI16 v - toI16 p)))) = v := by
  unfold toU16 toI16
  omega

lemma decVals_encResid (B : ℕ) (coeffs : List ℕ) :
    ∀ (vs w : List Int), (∀ v ∈ vs, 0 ≤ v ∧ v < 65536) →
      decVals B coeffs w (encResid B coeffs w vs) = vs := by
  intro vs
  induction vs with
  | nil => intro w _; simp [encResid, decVals]
  | cons v vs ih =>
    intro w hv
    have hv0 : 0 ≤ v ∧ v < 65536 := hv v (by simp)
    simp only [encResid, decVals]
    rw [cast_roundtrip _ _ hv0.1 hv0.2]
    exact congrArg (v :: ·) (ih (v :: w.dropLast) (fun x hx => hv x (by simp [hx])))

/-- Core round-trip lemma: the decoder recurrence reconstructs any sequence
of `u16` values from the residuals the encoder recurrence emits, for every
coefficient vector and every window length. -/
lemma lpc_roundtrip (B O : ℕ) (coeffs : List ℕ) (values : List Int)
    (hv : ∀ v ∈ values, 0 ≤ v ∧ v < 65536) :
    decodeLpc B O coeffs (encodeLpc B O coeffs values).2.2 = values := by
  rw [encodeLpc_residuals, decodeLpc_eq_decVals]
  exact decVals_encResid B coeffs values (List.replicate O 0) hv

/-- C1: For every channel's quantized integer sequence (a sequence of `u16`
values) and every valid `(tap_order, coeff_bits)` configuration, running the
decoder recurrence (zero-initialized window, prediction = sum of
`previous_value[k] * sign_extend(coefficient[k])` arithmetically shifted
right by `coeff_bits - 1`, current = prediction + residual, push current
into the window) on the coefficients and residuals produced by the encoder
reconstructs the original sequence exactly, element for element. -/
theorem lpc_roundtrip_exact (B O : ℕ) (coeffs : List ℕ) (values : List Int)
    (hO : 1 ≤ O) (hB1 : 1 ≤ B) (hB2 : B ≤ 8)
    (hv : ∀ v ∈ values, 0 ≤ v ∧ v < 65536) :
    decodeLpc B O coeffs (encodeLpc B O coeffs values).2.2 = values :=
  lpc_roundtrip B O coeffs values hv

/-- Witness for C1 at the configured constants `tap_order = 1`,
`coeff_bits = 8`, coefficient vector `[200]`, values `[3, 100]`. -/
theorem lpc_roundtrip_exact_witness :
    (1 ≤ CHANNEL_LPC_ORDER ∧ 1 ≤ CHANNEL_LPC_COEFFICIENT_BITS ∧
      CHANNEL_LPC_COEFFICIENT_BITS ≤ 8 ∧
      (∀ v ∈ ([3, 100] : List Int), 0 ≤ v ∧ v < 65536)) ∧
    decodeLpc CHANNEL_LPC_COEFFICIENT_BITS CHANNEL_LPC_ORDER [200]
      (encodeLpc CHANNEL_LPC_COEFFICIENT_BITS CHANNEL_LPC_ORDER [200] [3, 100]).2.2 = [3, 100] :=
  ⟨⟨by decide, by decide, by decide, by decide⟩,
    lpc_roundtrip_exact CHANNEL_LPC_COEFFICIENT_BITS CHANNEL_LPC_ORDER [200] [3, 100]
      (by decide) (by decide) (by decide) (by decide)⟩

/-! ### Exhaustive coefficient search (src/main.rs:86-130) -/

/-- Unpack a packed candidate (src/main.rs:88-91): coefficient `i` is
`(packed_coefficients >> (i * B)) & ((1 << B) - 1)`, written with division
and remainder by powers of two. -/
def unpackCoefficients (B O k : ℕ) : List ℕ :=
  (List.range O).map fun i => k / 2 ^ (i * B) % 2 ^ B

/-- One candidate's update of the running best (src/main.rs:119-128): the
candidate replaces the best only on strictly smaller error, so ties keep the
earlier (lower packed integer) candidate. -/
def searchStep (B O : ℕ) (values : List Int) (best : Option (Int × List ℕ × List Int))
    (k : ℕ) : Option (Int × List ℕ × List Int) :=
  let coeffs := unpackCoefficients B O k
  let r := encodeLpc B O coeffs values
  match best with
  | some b => if r.2.1 < b.1 then some (r.2.1, coeffs, r.2.2) else some b
  | none => some (r.2.1, coeffs, r.2.2)

/-- The exhaustive search loop over all `2 ^ (O * B)` packed coefficient
vectors (src/main.rs:86-129), in increasing packed order starting from the
all-zero vector. -/
def searchBest (B O : ℕ) (values : List Int) : Option (Int × List ℕ × List Int) :=
  (List.range (2 ^ (O * B))).foldl (searchStep B O values) none

/-- The sum of squared residuals of packed candidate `k`. -/
def errOf (B O : ℕ) (values : List Int) (k : ℕ) : Int :=
  (encodeLpc B O (unpackCoefficients B O k) values).2.1

/-- The residual sequence of packed candidate `k`. -/
def residOf (B O : ℕ) (values : List Int) (k : ℕ) : List Int :=
  (encodeLpc B O (unpackCoefficients B O k) values).2.2

lemma errOf_eq (B O : ℕ) (values : List Int) (k : ℕ) :
    (encodeLpc B O (unpackCoefficients B O k) values).2.1 = errOf B O values k := rfl

lemma residOf_eq (B O : ℕ) (values : List Int) (k : ℕ) :
    (encodeLpc B O (unpackCoefficients B O k) values).2.2 = residOf B O values k := rfl

lemma searchBest_range (B O : ℕ) (values : List Int) :
    ∀ n : ℕ, 1 ≤ n →
      ∃ kmin, kmin < n ∧
        (List.range n).foldl (searchStep B O values) none =
          some (errOf B O values kmin, unpackCoefficients B O kmin, residOf B O values kmin) ∧
        (∀ k, k < n → errOf B O values kmin ≤ errOf B O values k) ∧
        (∀ k, k < kmin → errOf B O values kmin < errOf B O values k) := by
  intro n
  induction n with
  | zero => omega
  | succ n ih =>
    intro _
    by_cases hn : 1 ≤ n
    · obtain ⟨kmin, hlt, heq, hmin, hfirst⟩ := ih hn
      rw [List.range_succ, List.foldl_append, heq]
      by_cases hcmp : errOf B O values n < errOf B O values kmin
      · refine ⟨n, by omega, ?_, ?_, ?_⟩
        · simp only [List.foldl_cons, List.foldl_nil, searchStep, errOf_eq, residOf_eq]
          rw [if_pos hcmp]
        · intro k hk
          rcases Nat.lt_succ_iff_lt_or_eq.mp hk with hk' | hk'
          · exact le_of_lt (lt_of_lt_of_le hcmp (hmin k hk'))
          · subst hk'; exact le_refl _
        · intro k hk
          exact lt_of_lt_of_le hcmp (hmin k hk)
      · refine ⟨kmin, by omega, ?_, ?_, hfirst⟩
        · simp only [List.foldl_cons, List.foldl_nil, searchStep, errOf_eq, residOf_eq]
          rw [if_neg hcmp]
        · intro k hk
          rcases Nat.lt_succ_iff_lt_or_eq.mp hk with hk' | hk'
          · exact hmin k hk'
          · subst hk'; exact le_of_not_lt hcmp
    · have hn0 : n = 0 := by omega
      subst hn0
      refine ⟨0, by omega, ?_, ?_, ?_⟩
      · show (List.range 1).foldl (searchStep B O values) none = _
        rw [show List.range 1 = [0] from rfl]
        simp only [List.foldl_cons, List.foldl_nil, searchStep, errOf_eq, residOf_eq]
      · intro k hk
        have : k = 0 := by omega
        subst this; exact le_refl _
      · intro k hk; omega

/-- `searchBest` returns exactly the first candidate realizing the minimum
sum of squared residuals. -/
lemma searchBest_spec (B O : ℕ) (values : List Int) :
    ∃ kmin, kmin < 2 ^ (O * B) ∧
      searchBest B O values =
        some (errOf B O values kmin, unpackCoefficients B O kmin, residOf B O values kmin) ∧
      (∀ k, k < 2 ^ (O * B) → errOf B O values kmin ≤ errOf B O values k) ∧
      (∀ k, k < kmin → errOf B O values kmin < errOf B O values k) :=
  searchBest_range B O values (2 ^ (O * B)) (Nat.one_le_two_pow)

/-- C3: the coefficient search enumerates all `2 ^ (tap_order * coeff_bits)`
packed vectors, computes the full residual recurrence and sum of squared
residuals for each, and selects a vector of minimal error — in particular at
most the error of the all-zero (no prediction) vector, which is packed
candidate 0 — breaking ties in favor of the lowest packed integer
encountered first. -/
theorem coefficient_search_optimal (B O : ℕ) (values : List Int) :
    ∃ kmin, kmin < 2 ^ (O * B) ∧
      searchBest B O values =
        some (errOf B O values kmin, unpackCoefficients B O kmin, residOf B O values kmin) ∧
      (∀ k, k < 2 ^ (O * B) → errOf B O values kmin ≤ errOf B O values k) ∧
      (∀ k, k < kmin → errOf B O values kmin < errOf B O values k) ∧
      errOf B O values kmin ≤ errOf B O values 0 ∧
      unpackCoefficients B O 0 = List.replicate O 0 := by
  obtain ⟨kmin, hlt, heq, hmin, hfirst⟩ := searchBest_spec B O values
  refine ⟨kmin, hlt, heq, hmin, hfirst, hmin 0 (Nat.one_le_two_pow), ?_⟩
  simp [unpackCoefficients]

/-- Witness for C3 at the configured constants on the one-element channel
`[0]`. -/
theorem coefficient_search_optimal_witness :
    ∃ kmin, kmin < 2 ^ (CHANNEL_LPC_ORDER * CHANNEL_LPC_COEFFICIENT_BITS) ∧
      searchBest CHANNEL_LPC_COEFFICIENT_BITS CHANNEL_LPC_ORDER [0] =
        some (errOf CHANNEL_LPC_COEFFICIENT_BITS CHANNEL_LPC_ORDER [0] kmin,
          unpackCoefficients CHANNEL_LPC_COEFFICIENT_BITS CHANNEL_LPC_ORDER kmin,
          residOf CHANNEL_LPC_COEFFICIENT_BITS CHANNEL_LPC_ORDER [0] kmin) ∧
      (∀ k, k < 2 ^ (CHANNEL_LPC_ORDER * CHANNEL_LPC_COEFFICIENT_BITS) →
        errOf CHANNEL_LPC_COEFFICIENT_BITS CHANNEL_LPC_ORDER [0] kmin ≤
          errOf CHANNEL_LPC_COEFFICIENT_BITS CHANNEL_LPC_ORDER [0] k) ∧
      (∀ k, k < kmin →
        errOf CHANNEL_LPC_COEFFICIENT_BITS CHANNEL_LPC_ORDER [0] kmin <
          errOf CHANNEL_LPC_COEFFICIENT_BITS CHANNEL_LPC_ORDER [0] k) ∧
      errOf CHANNEL_LPC_COEFFICIENT_BITS CHANNEL_LPC_ORDER [0] kmin ≤
        errOf CHANNEL_LPC_COEFFICIENT_BITS CHANNEL_LPC_ORDER [0] 0 ∧
      unpackCoefficients CHANNEL_LPC_COEFFICIENT_BITS CHANNEL_LPC_ORDER 0 =
        List.replicate CHANNEL_LPC_ORDER 0 :=
  coefficient_search_optimal CHANNEL_LPC_COEFFICIENT_BITS CHANNEL_LPC_ORDER [0]

/-- C9: for every `tap_order ≥ 1` and `coeff_bits ≥ 1` the search loop runs
at least one iteration, so the best-candidate accumulator is `some` when the
loop ends and the `unwrap` at src/main.rs:130 never fails. -/
theorem search_unwrap_safe (B O : ℕ) (values : List Int) (hO : 1 ≤ O) (hB : 1 ≤ B) :
    ∃ t, searchBest B O values = some t := by
  obtain ⟨kmin, _, heq, _, _⟩ := searchBest_spec B O values
  exact ⟨_, heq⟩

/-- Witness for C9 at the configured constants on the one-element channel
`[0]`. -/
theorem search_unwrap_safe_witness :
    (1 ≤ CHANNEL_LPC_ORDER ∧ 1 ≤ CHANNEL_LPC_COEFFICIENT_BITS) ∧
    ∃ t, searchBest CHANNEL_LPC_COEFFICIENT_BITS CHANNEL_LPC_ORDER [0] = some t :=
  ⟨⟨by decide, by decide⟩,
    search_unwrap_safe CHANNEL_LPC_COEFFICIENT_BITS CHANNEL_LPC_ORDER [0]
      (by decide) (by decide)⟩

/-! ### Channel quantization (src/main.rs:69-84) and dequantization
(src/main.rs:203).  `f64` samples are modelled as `ℚ`. -/

/-- The Rust saturating float-to-`u16` cast (`as u16`): truncation toward
zero, clamped to `[0, 65535]`.  For nonnegative inputs truncation toward
zero is the floor, and for negative inputs both truncation and the
`Int.toNat` clamp produce 0, so `min (Int.toNat floor) 65535` is exact. -/
def f64ToU16 (x : ℚ) : ℕ := min (Int.toNat ⌊x⌋) 65535

/-- The min/max scan over a channel's samples (src/main.rs:69-78): starting
from `values[0]`, every sample lowers the running minimum or raises the
running maximum. -/
def minMaxFold (values : List ℚ) (v0 : ℚ) : ℚ × ℚ :=
  values.foldl (fun a v => (if v < a.1 then v else a.1, if v > a.2 then v else a.2)) (v0, v0)

/-- Quantization of one sample (src/main.rs:80-84), parametric in the bit
width; the source instantiates `bits = CHANNEL_QUANTIZATION_BITS`. -/
def quantizeValue (bits : ℕ) (mn range v : ℚ) : ℕ :=
  if range > 0 then f64ToU16 ((v - mn) / range * ((2 ^ bits - 1 : ℕ) : ℚ)) else 0

/-- Dequantization of one reconstructed integer (src/main.rs:203),
parametric in the bit width; the source instantiates
`bits = CHANNEL_QUANTIZATION_BITS`. -/
def dequantizeValue (bits : ℕ) (mn range : ℚ) (v : Int) : ℚ :=
  mn + (v : ℚ) / ((2 ^ bits - 1 : ℕ) : ℚ) * range

lemma minMaxFold_aux (l : List ℚ) :
    ∀ a b : ℚ,
      (l.foldl (fun a v => (if v < a.1 then v else a.1, if v > a.2 then v else a.2)) (a, b)).1 ≤ a ∧
      b ≤ (l.foldl (fun a v => (if v < a.1 then v else a.1, if v > a.2 then v else a.2)) (a, b)).2 ∧
      ∀ v ∈ l,
        (l.foldl (fun a v => (if v < a.1 then v else a.1, if v > a.2 then v else a.2)) (a, b)).1 ≤ v ∧
        v ≤ (l.foldl (fun a v => (if v < a.1 then v else a.1, if v > a.2 then v else a.2)) (a, b)).2 := by
  induction l with
  | nil => intro a b; refine ⟨le_refl _, le_refl _, ?_⟩; intro v hv; simp at hv
  | cons x l ih =>
    intro a b
    simp only [List.foldl_cons]
    obtain ⟨h1, h2, h3⟩ := ih (if x < a then x else a) (if x > b then x else b)
    refine ⟨?_, ?_, ?_⟩
    · exact le_trans h1 (by split_ifs with h <;> [exact le_of_lt h; exact le_refl a])
    · exact le_trans (by split_ifs with h <;> [exact le_of_lt h; exact le_refl b]) h2
    · intro v hv
      rcases List.mem_cons.mp hv with hv' | hv'
      · subst hv'
        constructor
        · exact le_trans h1 (by split_ifs with h <;> [exact le_refl v; exact le_of_not_lt h])
        · exact le_trans (by split_ifs with h <;> [exact le_refl v; exact le_of_not_lt h]) h2
      · exact h3 v hv'

/-- Every sample lies between the scanned minimum and maximum. -/
lemma minMaxFold_bounds (values : List ℚ) (v0 : ℚ) :
    (minMaxFold values v0).1 ≤ v0 ∧ v0 ≤ (minMaxFold values v0).2 ∧
      ∀ v ∈ values, (minMaxFold values v0).1 ≤ v ∧ v ≤ (minMaxFold values v0).2 :=
  minMaxFold_aux values v0 v0

lemma qmax_pos {bits : ℕ} (hb : 1 ≤ bits) : (1 : ℚ) ≤ ((2 ^ bits - 1 : ℕ) : ℚ) := by
  have h2 : (2 : ℕ) ≤ 2 ^ bits := by
    calc (2 : ℕ) = 2 ^ 1 := rfl
    _ ≤ 2 ^ bits := Nat.pow_le_pow_right (by omega) hb
  have : (1 : ℕ) ≤ 2 ^ bits - 1 := by omega
  exact_mod_cast this

lemma qmax_le {bits : ℕ} (hb : bits ≤ 16) : (2 ^ bits - 1 : ℕ) ≤ 65535 := by
  have : 2 ^ bits ≤ 2 ^ 16 := Nat.pow_le_pow_right (by omega) hb
  omega

/-- Abstract form of the quantization bound: flooring `(v - mn)/range * M`
and mapping back loses at most one step `range / M`. -/
lemma floor_dequant_err (M mn range v : ℚ) (hM0 : 0 < M) (hrpos : 0 < range)
    (h1 : mn ≤ v) :
    |v - (mn + ((⌊(v - mn) / range * M⌋ : Int) : ℚ) / M * range)| ≤ range / M := by
  have hMne : M ≠ 0 := ne_of_gt hM0
  have hrne : range ≠ 0 := ne_of_gt hrpos
  set x : ℚ := (v - mn) / range * M with hx
  have hveq : v - (mn + ((⌊x⌋ : Int) : ℚ) / M * range) = Int.fract x * range / M := by
    rw [Int.fract, hx]
    field_simp
    ring
  rw [hveq,
    abs_of_nonneg (div_nonneg (mul_nonneg (Int.fract_nonneg x) (le_of_lt hrpos))
      (le_of_lt hM0))]
  rw [div_le_div_iff_of_pos_right hM0]
  exact mul_le_of_le_one_left (le_of_lt hrpos) (le_of_lt (Int.fract_lt_one x))

/-- Core quantization bound: for a sample within `[mn, mn + range]`,
dequantizing the quantized value recovers it to within one quantization
step `range / (2 ^ bits - 1)`. -/
lemma quantize_dequantize_bound (bits : ℕ) (hb1 : 1 ≤ bits) (hb2 : bits ≤ 16)
    (mn range v : ℚ) (hr : 0 ≤ range) (h1 : mn ≤ v) (h2 : v ≤ mn + range) :
    |v - dequantizeValue bits mn range (quantizeValue bits mn range v)| ≤
      range / ((2 ^ bits - 1 : ℕ) : ℚ) := by
  have hM1 : (1 : ℚ) ≤ ((2 ^ bits - 1 : ℕ) : ℚ) := qmax_pos hb1
  have hM0 : (0 : ℚ) < ((2 ^ bits - 1 : ℕ) : ℚ) := lt_of_lt_of_le one_pos hM1
  by_cases hrpos : range > 0
  · set x : ℚ := (v - mn) / range * ((2 ^ bits - 1 : ℕ) : ℚ) with hx
    have hx0 : 0 ≤ x := by
      apply mul_nonneg (div_nonneg (by linarith) (le_of_lt hrpos)) (le_of_lt hM0)
    have hxM : x ≤ ((2 ^ bits - 1 : ℕ) : ℚ) := by
      have hdiv : (v - mn) / range ≤ 1 := (div_le_one hrpos).mpr (by linarith)
      calc x = (v - mn) / range * ((2 ^ bits - 1 : ℕ) : ℚ) := hx
      _ ≤ 1 * ((2 ^ bits - 1 : ℕ) : ℚ) := mul_le_mul_of_nonneg_right hdiv (le_of_lt hM0)
      _ = ((2 ^ bits - 1 : ℕ) : ℚ) := one_mul _
    have hfl0 : (0 : Int) ≤ ⌊x⌋ := Int.floor_nonneg.mpr hx0
    have hfl_le : ⌊x⌋ ≤ ((2 ^ bits - 1 : ℕ) : Int) := by
      have h := Int.floor_le_floor hxM
      rwa [Int.floor_natCast] at h
    have hsat : Int.toNat ⌊x⌋ ≤ 65535 := by
      have h1' : ((2 ^ bits - 1 : ℕ) : Int) ≤ 65535 := by exact_mod_cast qmax_le hb2
      omega
    have hq : quantizeValue bits mn range v = Int.toNat ⌊x⌋ := by
      unfold quantizeValue f64ToU16
      rw [if_pos hrpos, ← hx]
      omega
    have hqcast : ((Int.toNat ⌊x⌋ : ℕ) : ℚ) = ((⌊x⌋ : Int) : ℚ) := by
      exact_mod_cast congrArg (fun z : Int => (z : ℚ)) (Int.toNat_of_nonneg hfl0)
    have hdeq : dequantizeValue bits mn range (quantizeValue bits mn range v) =
        mn + ((⌊x⌋ : Int) : ℚ) / ((2 ^ bits - 1 : ℕ) : ℚ) * range := by
      unfold dequantizeValue
      rw [hq]
      push_cast [Int.toNat_of_nonneg hfl0]
      rfl
    rw [hdeq]
    exact floor_dequant_err ((2 ^ bits - 1 : ℕ) : ℚ) mn range v hM0 hrpos h1
  · have hr0 : range = 0 := le_antisymm (le_of_not_lt hrpos) hr
    have hv : v = mn := by linarith [h2, hr0, h1]
    subst hv
    rw [hr0]
    unfold quantizeValue dequantizeValue
    simp

/-! ### Channel data model (src/main.rs:27-50 and the bvh crate's channel
enum as used at src/main.rs:137-144, 183-190) -/

inductive BvhChannel where
  | xPosition | yPosition | zPosition | xRotation | yRotation | zRotation
deriving DecidableEq

inductive ChannelType where
  | translationX | translationY | translationZ | rotationX | rotationY | rotationZ
deriving DecidableEq

/-- The mocap `Channel` record (src/main.rs:27-34). -/
structure Channel where
  type_ : ChannelType
  value_range_min : ℚ
  value_range : ℚ
  lpc_coefficients : List ℕ
  residuals : List Int
deriving DecidableEq

/-- The channel-type conversion at src/main.rs:137-144. -/
def channelTypeOf : BvhChannel → ChannelType
  | .xPosition => .translationX
  | .yPosition => .translationY
  | .zPosition => .translationZ
  | .xRotation => .rotationX
  | .yRotation => .rotationY
  | .zRotation => .rotationZ

/-- The inverse channel-type conversion at src/main.rs:183-190. -/
def bvhChannelOf : ChannelType → BvhChannel
  | .translationX => .xPosition
  | .translationY => .yPosition
  | .translationZ => .zPosition
  | .rotationX => .xRotation
  | .rotationY => .yRotation
  | .rotationZ => .zRotation

lemma bvhChannelOf_channelTypeOf (c : BvhChannel) : bvhChannelOf (channelTypeOf c) = c := by
  cases c <;> rfl

/-- The per-channel encode pipeline, the body of the channel loop in
`build_joint` (src/main.rs:64-149): scan min/max (`values[0]` panics on an
empty channel, modelled as `none`), quantize, exhaustively search the LPC
coefficients, and build the `Channel` record.  The `unwrap` at
src/main.rs:130 is modelled by the inner `match`. -/
def processChannel (c : BvhChannel) (values : List ℚ) : Option Channel :=
  match values with
  | [] => none
  | v0 :: _ =>
    let mm := minMaxFold values v0
    let value_range := mm.2 - mm.1
    let ints := values.map fun v =>
      ((quantizeValue CHANNEL_QUANTIZATION_BITS mm.1 value_range v : ℕ) : Int)
    match searchBest CHANNEL_LPC_COEFFICIENT_BITS CHANNEL_LPC_ORDER ints with
    | some best => some ⟨channelTypeOf c, mm.1, value_range, best.2.1, best.2.2⟩
    | none => none

/-- The decoder recurrence at the configured constants
(src/main.rs:192-211). -/
def decodeResiduals (coeffs : List ℕ) (residuals : List Int) : List Int :=
  decodeLpc CHANNEL_LPC_COEFFICIENT_BITS CHANNEL_LPC_ORDER coeffs residuals

/-- The per-channel decode pipeline in `build_bvh_joint`
(src/main.rs:192-211): decode the residuals and dequantize each
reconstructed integer (src/main.rs:203). -/
def reconstructChannel (ch : Channel) : List ℚ :=
  (decodeResiduals ch.lpc_coefficients ch.residuals).map
    (dequantizeValue CHANNEL_QUANTIZATION_BITS ch.value_range_min ch.value_range)

lemma quantizeValue_lt (bits : ℕ) (mn range v : ℚ) :
    quantizeValue bits mn range v < 65536 := by
  unfold quantizeValue f64ToU16
  split_ifs <;> omega

/-- Reduction of `processChannel` on a non-empty channel. -/
lemma processChannel_cons (c : BvhChannel) (v0 : ℚ) (vs : List ℚ) :
    processChannel c (v0 :: vs) =
      match searchBest CHANNEL_LPC_COEFFICIENT_BITS CHANNEL_LPC_ORDER
          ((v0 :: vs).map fun v =>
            ((quantizeValue CHANNEL_QUANTIZATION_BITS (minMaxFold (v0 :: vs) v0).1
              ((minMaxFold (v0 :: vs) v0).2 - (minMaxFold (v0 :: vs) v0).1) v : ℕ) : Int)) with
      | some best => some ⟨channelTypeOf c, (minMaxFold (v0 :: vs) v0).1,
          (minMaxFold (v0 :: vs) v0).2 - (minMaxFold (v0 :: vs) v0).1, best.2.1, best.2.2⟩
      | none => none := rfl

/-- Characterization of a successful `processChannel`: the record's fields,
and the fact that decoding its residuals with its coefficients recovers the
quantized integer sequence. -/
lemma processChannel_spec (c : BvhChannel) (v0 : ℚ) (vs : List ℚ) :
    ∃ ch, processChannel c (v0 :: vs) = some ch ∧
      ch.type_ = channelTypeOf c ∧
      ch.value_range_min = (minMaxFold (v0 :: vs) v0).1 ∧
      ch.value_range = (minMaxFold (v0 :: vs) v0).2 - (minMaxFold (v0 :: vs) v0).1 ∧
      decodeResiduals ch.lpc_coefficients ch.residuals =
        (v0 :: vs).map (fun v =>
          ((quantizeValue CHANNEL_QUANTIZATION_BITS (minMaxFold (v0 :: vs) v0).1
            ((minMaxFold (v0 :: vs) v0).2 - (minMaxFold (v0 :: vs) v0).1) v : ℕ) : Int)) := by
  obtain ⟨kmin, hlt, heq, hmin, hfirst⟩ :=
    searchBest_spec CHANNEL_LPC_COEFFICIENT_BITS CHANNEL_LPC_ORDER
      ((v0 :: vs).map (fun v =>
        ((quantizeValue CHANNEL_QUANTIZATION_BITS (minMaxFold (v0 :: vs) v0).1
          ((minMaxFold (v0 :: vs) v0).2 - (minMaxFold (v0 :: vs) v0).1) v : ℕ) : Int)))
  refine ⟨⟨channelTypeOf c, (minMaxFold (v0 :: vs) v0).1,
      (minMaxFold (v0 :: vs) v0).2 - (minMaxFold (v0 :: vs) v0).1,
      unpackCoefficients CHANNEL_LPC_COEFFICIENT_BITS CHANNEL_LPC_ORDER kmin,
      residOf CHANNEL_LPC_COEFFICIENT_BITS CHANNEL_LPC_ORDER
        ((v0 :: vs).map (fun v =>
          ((quantizeValue CHANNEL_QUANTIZATION_BITS (minMaxFold (v0 :: vs) v0).1
            ((minMaxFold (v0 :: vs) v0).2 - (minMaxFold (v0 :: vs) v0).1) v : ℕ) : Int)))
        kmin⟩, ?_, rfl, rfl, rfl, ?_⟩
  · rw [processChannel_cons, heq]
  · show decodeResiduals (unpackCoefficients _ _ kmin) (residOf _ _ _ kmin) = _
    unfold decodeResiduals residOf
    apply lpc_roundtrip
    intro v hv
    rw [List.mem_map] at hv
    obtain ⟨q, _, hq⟩ := hv
    subst hq
    constructor
    · exact Int.natCast_nonneg _
    · exact_mod_cast quantizeValue_lt CHANNEL_QUANTIZATION_BITS _ _ q

lemma getD_map_lt {α β : Type} (f : α → β) (d1 : α) (d2 : β) :
    ∀ (l : List α) (i : ℕ), i < l.length → (l.map f).getD i d2 = f (l.getD i d1) := by
  intro l
  induction l with
  | nil => intro i hi; simp at hi
  | cons x l ih =>
    intro i hi
    cases i with
    | zero => rfl
    | succ i => exact ih i (by simpa using hi)

lemma getD_mem {α : Type} (d : α) :
    ∀ (l : List α) (i : ℕ), i < l.length → l.getD i d ∈ l := by
  intro l
  induction l with
  | nil => intro i hi; simp at hi
  | cons x l ih =>
    intro i hi
    cases i with
    | zero => simp
    | succ i => exact List.mem_cons_of_mem x (ih i (by simpa using hi))

/-! ### Per-channel claims -/

lemma quantizeValue_le (bits : ℕ) (mn range v : ℚ) (h1 : mn ≤ v) (h2 : v ≤ mn + range) :
    quantizeValue bits mn range v ≤ 2 ^ bits - 1 := by
  unfold quantizeValue f64ToU16
  split_ifs with hrpos
  · have hM0 : (0 : ℚ) ≤ ((2 ^ bits - 1 : ℕ) : ℚ) := Nat.cast_nonneg _
    have hdiv : (v - mn) / range ≤ 1 := (div_le_one hrpos).mpr (by linarith)
    have hxM : (v - mn) / range * ((2 ^ bits - 1 : ℕ) : ℚ) ≤ ((2 ^ bits - 1 : ℕ) : ℚ) := by
      calc (v - mn) / range * ((2 ^ bits - 1 : ℕ) : ℚ)
          ≤ 1 * ((2 ^ bits - 1 : ℕ) : ℚ) := mul_le_mul_of_nonneg_right hdiv hM0
      _ = ((2 ^ bits - 1 : ℕ) : ℚ) := one_mul _
    have hfl : ⌊(v - mn) / range * ((2 ^ bits - 1 : ℕ) : ℚ)⌋ ≤ ((2 ^ bits - 1 : ℕ) : Int) := by
      have h := Int.floor_le_floor hxM
      rwa [Int.floor_natCast] at h
    omega
  · exact Nat.zero_le _

/-- C10: every quantized integer the quantizer produces for a non-empty
channel lies in `[0, 2 ^ bits - 1]` (the lower bound is by type: the value
is a `ℕ`): when the scanned range is 0 the value is 0, and otherwise the
scaled, floored result never exceeds `2 ^ bits - 1`. -/
theorem quantized_values_bounded (v0 : ℚ) (vs : List ℚ) :
    ∀ v ∈ (v0 :: vs),
      quantizeValue CHANNEL_QUANTIZATION_BITS (minMaxFold (v0 :: vs) v0).1
        ((minMaxFold (v0 :: vs) v0).2 - (minMaxFold (v0 :: vs) v0).1) v ≤
        2 ^ CHANNEL_QUANTIZATION_BITS - 1 ∧
      ((minMaxFold (v0 :: vs) v0).2 - (minMaxFold (v0 :: vs) v0).1 = 0 →
        quantizeValue CHANNEL_QUANTIZATION_BITS (minMaxFold (v0 :: vs) v0).1
          ((minMaxFold (v0 :: vs) v0).2 - (minMaxFold (v0 :: vs) v0).1) v = 0) := by
  intro v hv
  obtain ⟨hmem1, hmem2⟩ := (minMaxFold_bounds (v0 :: vs) v0).2.2 v hv
  constructor
  · exact quantizeValue_le _ _ _ _ hmem1 (by linarith)
  · intro hr0
    unfold quantizeValue
    rw [if_neg (by rw [hr0]; exact lt_irrefl 0)]

/-- Witness for C10 on the channel `[5]`. -/
theorem quantized_values_bounded_witness :
    ((5 : ℚ) ∈ ([5] : List ℚ)) ∧
    (quantizeValue CHANNEL_QUANTIZATION_BITS (minMaxFold [(5 : ℚ)] 5).1
        ((minMaxFold [(5 : ℚ)] 5).2 - (minMaxFold [(5 : ℚ)] 5).1) 5 ≤
        2 ^ CHANNEL_QUANTIZATION_BITS - 1 ∧
      ((minMaxFold [(5 : ℚ)] 5).2 - (minMaxFold [(5 : ℚ)] 5).1 = 0 →
        quantizeValue CHANNEL_QUANTIZATION_BITS (minMaxFold [(5 : ℚ)] 5).1
          ((minMaxFold [(5 : ℚ)] 5).2 - (minMaxFold [(5 : ℚ)] 5).1) 5 = 0)) :=
  ⟨by decide, quantized_values_bounded 5 [] 5 (by decide)⟩

/-- C2: for every non-empty channel and every frame, the original sample and
the value obtained by quantizing, encoding, decoding and dequantizing differ
by at most one quantization step `value_range / (2 ^ bits - 1)`. -/
theorem quantization_error_bound (c : BvhChannel) (values : List ℚ) (ch : Channel)
    (h : processChannel c values = some ch) :
    ∀ i, i < values.length →
      |values.getD i 0 - (reconstructChannel ch).getD i 0| ≤
        ch.value_range / ((2 ^ CHANNEL_QUANTIZATION_BITS - 1 : ℕ) : ℚ) := by
  cases values with
  | nil =>
    rw [show processChannel c ([] : List ℚ) = none from rfl] at h
    exact Option.noConfusion h
  | cons v0 vs =>
    obtain ⟨ch', h', hty, hmn, hrng, hdec⟩ := processChannel_spec c v0 vs
    rw [h'] at h
    cases h
    intro i hi
    have hrec : reconstructChannel ch =
        (v0 :: vs).map (fun v =>
          dequantizeValue CHANNEL_QUANTIZATION_BITS ch.value_range_min ch.value_range
            ((quantizeValue CHANNEL_QUANTIZATION_BITS (minMaxFold (v0 :: vs) v0).1
              ((minMaxFold (v0 :: vs) v0).2 - (minMaxFold (v0 :: vs) v0).1) v : ℕ) : Int)) := by
      unfold reconstructChannel
      rw [hdec, List.map_map]
      rfl
    rw [hrec, getD_map_lt _ (0 : ℚ) (0 : ℚ) (v0 :: vs) i hi]
    set v : ℚ := (v0 :: vs).getD i 0 with hvdef
    have hvmem : v ∈ (v0 :: vs) := getD_mem 0 (v0 :: vs) i hi
    obtain ⟨hlo, hhi⟩ := (minMaxFold_bounds (v0 :: vs) v0).2.2 v hvmem
    rw [hmn, hrng]
    exact quantize_dequantize_bound CHANNEL_QUANTIZATION_BITS (by decide) (by decide)
      (minMaxFold (v0 :: vs) v0).1
      ((minMaxFold (v0 :: vs) v0).2 - (minMaxFold (v0 :: vs) v0).1) v
      (by linarith) hlo (by linarith)

/-- Concrete evaluation of the pipeline on the one-frame channel `[5]`. -/
lemma processChannel_const5 :
    processChannel BvhChannel.xPosition [5] =
      some ⟨ChannelType.translationX, 5, 0, [0], [0]⟩ := by
  rw [processChannel_cons]
  have hmm : minMaxFold [(5 : ℚ)] 5 = (5, 5) := by decide
  rw [hmm]
  norm_num
  decide

/-- Witness for C2 on the channel `[5]`. -/
theorem quantization_error_bound_witness :
    processChannel BvhChannel.xPosition [5] =
      some ⟨ChannelType.translationX, 5, 0, [0], [0]⟩ ∧
    (0 < ([(5 : ℚ)] : List ℚ).length ∧
      |([(5 : ℚ)] : List ℚ).getD 0 0 -
          (reconstructChannel ⟨ChannelType.translationX, 5, 0, [0], [0]⟩).getD 0 0| ≤
        (Channel.mk ChannelType.translationX 5 0 [0] [0]).value_range /
          ((2 ^ CHANNEL_QUANTIZATION_BITS - 1 : ℕ) : ℚ)) :=
  ⟨processChannel_const5,
    ⟨by decide,
      quantization_error_bound BvhChannel.xPosition [5] _ processChannel_const5 0 (by decide)⟩⟩

lemma minMaxFold_const (v : ℚ) :
    ∀ (l : List ℚ), (∀ x ∈ l, x = v) →
      l.foldl (fun a x => (if x < a.1 then x else a.1, if x > a.2 then x else a.2)) (v, v) =
        (v, v) := by
  intro l
  induction l with
  | nil => intro _; rfl
  | cons x l ih =>
    intro h
    have hx : x = v := h x (by simp)
    subst hx
    simp only [List.foldl_cons, lt_irrefl, gt_iff_lt, if_neg, ite_self]
    exact ih (fun y hy => h y (List.mem_cons_of_mem x hy))

/-- C4: a channel whose samples are all identical has `value_range = 0`,
quantizes to the all-zero integer sequence, and the reconstructed channel
reproduces the original constant value exactly at every frame. -/
theorem degenerate_range_constant (c : BvhChannel) (v : ℚ) (values : List ℚ) (ch : Channel)
    (hconst : ∀ x ∈ values, x = v) (h : processChannel c values = some ch) :
    ch.value_range = 0 ∧ ch.value_range_min = v ∧
    (∀ x ∈ values,
      quantizeValue CHANNEL_QUANTIZATION_BITS ch.value_range_min ch.value_range x = 0) ∧
    reconstructChannel ch = values := by
  cases values with
  | nil =>
    rw [show processChannel c ([] : List ℚ) = none from rfl] at h
    exact Option.noConfusion h
  | cons v0 vs =>
    have hv0 : v0 = v := hconst v0 (by simp)
    subst hv0
    obtain ⟨ch', h', hty, hmn, hrng, hdec⟩ := processChannel_spec c v0 vs
    rw [h'] at h
    cases h
    have hmm : minMaxFold (v0 :: vs) v0 = (v0, v0) :=
      minMaxFold_const v0 (v0 :: vs) hconst
    have hrng0 : ch.value_range = 0 := by rw [hrng, hmm]; simp
    have hmn0 : ch.value_range_min = v0 := by rw [hmn, hmm]
    refine ⟨hrng0, hmn0, ?_, ?_⟩
    · intro x hx
      rw [hrng0]
      unfold quantizeValue
      rw [if_neg (lt_irrefl 0)]
    · unfold reconstructChannel
      rw [hdec, List.map_map]
      have hg : ∀ x ∈ (v0 :: vs),
          (dequantizeValue CHANNEL_QUANTIZATION_BITS ch.value_range_min ch.value_range ∘
            fun w => ((quantizeValue CHANNEL_QUANTIZATION_BITS (minMaxFold (v0 :: vs) v0).1
              ((minMaxFold (v0 :: vs) v0).2 - (minMaxFold (v0 :: vs) v0).1) w : ℕ) : Int)) x =
            id x := by
        intro x hx
        have hx' : x = v0 := hconst x hx
        subst hx'
        simp only [Function.comp, id]
        rw [hmn0, hrng0, hmm]
        simp [quantizeValue, dequantizeValue]
      rw [List.map_congr_left hg, List.map_id]

/-- Concrete evaluation of the pipeline on the constant channel `[3, 3]`. -/
lemma processChannel_const33 :
    processChannel BvhChannel.xPosition [3, 3] =
      some ⟨ChannelType.translationX, 3, 0, [0], [0, 0]⟩ := by
  rw [processChannel_cons]
  have hmm : minMaxFold [(3 : ℚ), 3] 3 = (3, 3) := by decide
  rw [hmm]
  norm_num
  decide

/-- Witness for C4 on the constant channel `[3, 3]`. -/
theorem degenerate_range_constant_witness :
    ((∀ x ∈ ([3, 3] : List ℚ), x = 3) ∧
      processChannel BvhChannel.xPosition [3, 3] =
        some ⟨ChannelType.translationX, 3, 0, [0], [0, 0]⟩) ∧
    ((Channel.mk ChannelType.translationX 3 0 [0] [0, 0]).value_range = 0 ∧
      (Channel.mk ChannelType.translationX 3 0 [0] [0, 0]).value_range_min = 3 ∧
      (∀ x ∈ ([3, 3] : List ℚ),
        quantizeValue CHANNEL_QUANTIZATION_BITS
          (Channel.mk ChannelType.translationX 3 0 [0] [0, 0]).value_range_min
          (Channel.mk ChannelType.translationX 3 0 [0] [0, 0]).value_range x = 0) ∧
      reconstructChannel ⟨ChannelType.translationX, 3, 0, [0], [0, 0]⟩ = [3, 3]) :=
  ⟨⟨by decide, processChannel_const33⟩,
    degenerate_range_constant BvhChannel.xPosition 3 [3, 3] _ (by decide)
      processChannel_const33⟩

/-- C5 counterexample: on the empty channel, the channel builder does not
return an `EmptyChannelError` value — it hits the out-of-bounds index
`values[0]` (src/main.rs:69) and panics, modelled as `none`.  The code has
no error-return path at all, so the claimed `EmptyChannelError` result does
not exist. -/
theorem empty_channel_counterexample :
    processChannel BvhChannel.xPosition [] = none := rfl

/-- C5 amended: the quantizer does fail on an empty channel rather than
proceed, and it fails only there — but the failure is an uncontrolled panic
(out-of-bounds indexing of `values[0]`, modelled `none`), not a returned
`EmptyChannelError`. -/
theorem empty_channel_panics (c : BvhChannel) (values : List ℚ) :
    processChannel c values = none ↔ values = [] := by
  cases values with
  | nil => simp [show processChannel c ([] : List ℚ) = none from rfl]
  | cons v0 vs =>
    obtain ⟨ch, h', _⟩ := processChannel_spec c v0 vs
    rw [h']
    simp

/-- Modelled from the spec: delta coding (spec §4.2 and §8) — the order-1
predictor with the coefficient fixed at the unit value, i.e. the prediction
is the previous quantized integer (initially 0) and the residual is the
difference.  The repository's src only contains the searched LPC coder;
delta coding itself appears only in the spec. -/
def deltaEncode (ints : List Int) : List Int :=
  (ints.foldl (fun (st : Int × List Int) v => (v, st.2 ++ [v - st.1])) (0, [])).2

/-- Modelled from the spec: the inverse delta decoder — each output is the
previous output (initially 0) plus the residual (spec §4.2). -/
def deltaDecode (residuals : List Int) : List Int :=
  (residuals.foldl (fun (st : Int × List Int) r => (st.1 + r, st.2 ++ [st.1 + r])) (0, [])).2

/-- C6: the concrete ramp scenario — channel `[0, 10, 20, 30]` with
`bits = 8` quantizes to `[0, 85, 170, 255]`; unit-coefficient delta coding
gives residuals `[0, 85, 85, 85]`; delta decoding reproduces
`[0, 85, 170, 255]`; and dequantization reproduces `[0, 10, 20, 30]`, in
particular within one quantization step `30 / (2 ^ 8 - 1)` at every frame. -/
theorem concrete_ramp_scenario :
    minMaxFold [0, 10, 20, 30] 0 = (0, 30) ∧
    ([0, 10, 20, 30] : List ℚ).map (quantizeValue 8 0 30) = [0, 85, 170, 255] ∧
    deltaEncode [0, 85, 170, 255] = [0, 85, 85, 85] ∧
    deltaDecode [0, 85, 85, 85] = [0, 85, 170, 255] ∧
    ([0, 85, 170, 255] : List Int).map (dequantizeValue 8 0 30) = [0, 10, 20, 30] ∧
    |(0 : ℚ) - dequantizeValue 8 0 30 0| ≤ 30 / ((2 ^ 8 - 1 : ℕ) : ℚ) ∧
    |(10 : ℚ) - dequantizeValue 8 0 30 85| ≤ 30 / ((2 ^ 8 - 1 : ℕ) : ℚ) ∧
    |(20 : ℚ) - dequantizeValue 8 0 30 170| ≤ 30 / ((2 ^ 8 - 1 : ℕ) : ℚ) ∧
    |(30 : ℚ) - dequantizeValue 8 0 30 255| ≤ 30 / ((2 ^ 8 - 1 : ℕ) : ℚ) := by
  refine ⟨by decide, ?_, by decide, by decide, ?_, ?_, ?_, ?_, ?_⟩
  · norm_num [quantizeValue, f64ToU16]
    decide
  all_goals norm_num [dequantizeValue]

/-! ### Skeleton trees: the bvh crate's types as used by src/main.rs, and
the mocap tree (src/main.rs:7-20, 46-50) -/

structure BvhOffset where
  x : ℚ
  y : ℚ
  z : ℚ

structure BvhEndSite where
  offset : BvhOffset

mutual
inductive BvhJoint where
  | mk (name : String) (offset : BvhOffset) (channels : List BvhChannel)
      (children : BvhJointChildren)
inductive BvhJointChildren where
  | joints (joints : List BvhJoint)
  | endSite (endSite : BvhEndSite)
end

structure BvhMotion where
  num_frames : ℕ
  frame_time : ℚ
  frames : List (List ℚ)

structure BvhHierarchy where
  root : BvhJoint

structure Bvh where
  hierarchy : BvhHierarchy
  motion : BvhMotion

mutual
inductive Joint where
  | mk (name : String) (offset : ℚ × ℚ × ℚ) (channels : List Channel)
      (children : JointChildren)
inductive JointChildren where
  | joints (joints : List Joint)
  | endSite (offset : ℚ × ℚ × ℚ)
end

structure Mocap where
  num_frames : ℕ
  frame_time : ℚ
  root : Joint

/-- The per-channel column read (src/main.rs:65-68): for each frame, push
`frame[channel_index]`; an out-of-bounds index panics (`none`). -/
def getColumn : List (List ℚ) → ℕ → Option (List ℚ)
  | [], _ => some []
  | row :: rest, ci =>
    match row[ci]? with
    | none => none
    | some v =>
      match getColumn rest ci with
      | none => none
      | some col => some (v :: col)

/-- The channel loop of `build_joint` (src/main.rs:63-152): process each
declared channel at the current cursor, incrementing the cursor by one per
channel. -/
def buildChannels (frames : List (List ℚ)) : List BvhChannel → ℕ → Option (List Channel × ℕ)
  | [], ci => some ([], ci)
  | c :: cs, ci =>
    match getColumn frames ci with
    | none => none
    | some col =>
      match processChannel c col with
      | none => none
      | some ch =>
        match buildChannels frames cs (ci + 1) with
        | none => none
        | some (rest, ci') => some (ch :: rest, ci')

mutual
/-- `build_joint` (src/main.rs:62-163): channels first, then children, with
the cursor threaded through. -/
def build_joint (frames : List (List ℚ)) : BvhJoint → ℕ → Option (Joint × ℕ)
  | .mk name offset channels children, ci =>
    match buildChannels frames channels ci with
    | none => none
    | some (mchans, ci') =>
      match buildChildren frames children ci' with
      | none => none
      | some (mchildren, ci'') =>
        some (.mk name (offset.x, offset.y, offset.z) mchans mchildren, ci'')
def buildChildren (frames : List (List ℚ)) : BvhJointChildren → ℕ → Option (JointChildren × ℕ)
  | .joints js, ci =>
    match buildJointList frames js ci with
    | none => none
    | some (mjs, ci') => some (.joints mjs, ci')
  | .endSite e, ci => some (.endSite (e.offset.x, e.offset.y, e.offset.z), ci)
def buildJointList (frames : List (List ℚ)) : List BvhJoint → ℕ → Option (List Joint × ℕ)
  | [], ci => some ([], ci)
  | j :: js, ci =>
    match build_joint frames j ci with
    | none => none
    | some (mj, ci') =>
      match buildJointList frames js ci' with
      | none => none
      | some (mjs, ci'') => some (mj :: mjs, ci'')
end

/-- `build_mocap` (src/main.rs:52-60): cursor starts at 0. -/
def build_mocap (b : Bvh) : Option Mocap :=
  match build_joint b.motion.frames b.hierarchy.root 0 with
  | none => none
  | some (root, _) => some ⟨b.motion.num_frames, b.motion.frame_time, root⟩

/-- `build_bvh_offset` (src/main.rs:227-233). -/
def build_bvh_offset (offset : ℚ × ℚ × ℚ) : BvhOffset :=
  ⟨offset.1, offset.2.1, offset.2.2⟩

/-- The residual loop of `build_bvh_joint` (src/main.rs:193-211): push the
reconstructed value of frame `index` onto `frames[index]`; an out-of-bounds
index panics (`none`). -/
def pushColumn : List (List ℚ) → List ℚ → Option (List (List ℚ))
  | frames, [] => some frames
  | [], _ :: _ => none
  | row :: rest, v :: vs =>
    match pushColumn rest vs with
    | none => none
    | some rest' => some ((row ++ [v]) :: rest')

/-- The channel loop of `build_bvh_joint` (src/main.rs:181-212): emit the
bvh channel type and push the reconstructed column. -/
def pushChannels : List Channel → List (List ℚ) → Option (List BvhChannel × List (List ℚ))
  | [], frames => some ([], frames)
  | ch :: chs, frames =>
    match pushColumn frames (reconstructChannel ch) with
    | none => none
    | some frames' =>
      match pushChannels chs frames' with
      | none => none
      | some (rest, frames'') => some (bvhChannelOf ch.type_ :: rest, frames'')

mutual
/-- `build_bvh_joint` (src/main.rs:180-225). -/
def build_bvh_joint : Joint → List (List ℚ) → Option (BvhJoint × List (List ℚ))
  | .mk name offset channels children, frames =>
    match pushChannels channels frames with
    | none => none
    | some (bchans, frames') =>
      match buildBvhChildren children frames' with
      | none => none
      | some (bchildren, frames'') =>
        some (.mk name (build_bvh_offset offset) bchans bchildren, frames'')
def buildBvhChildren : JointChildren → List (List ℚ) → Option (BvhJointChildren × List (List ℚ))
  | .joints js, frames =>
    match buildBvhJointList js frames with
    | none => none
    | some (bjs, frames') => some (.joints bjs, frames')
  | .endSite off, frames => some (.endSite ⟨build_bvh_offset off⟩, frames)
def buildBvhJointList : List Joint → List (List ℚ) → Option (List BvhJoint × List (List ℚ))
  | [], frames => some ([], frames)
  | j :: js, frames =>
    match build_bvh_joint j frames with
    | none => none
    | some (bj, frames') =>
      match buildBvhJointList js frames' with
      | none => none
      | some (bjs, frames'') => some (bj :: bjs, frames'')
end

/-- `build_bvh` (src/main.rs:165-178): start from `num_frames` empty rows. -/
def build_bvh (m : Mocap) : Option Bvh :=
  match build_bvh_joint m.root (List.replicate m.num_frames []) with
  | none => none
  | some (root, frames) => some ⟨⟨root⟩, ⟨m.num_frames, m.frame_time, frames⟩⟩

/-! ### Depth-first channel sequences and the skeleton erasure -/

mutual
/-- The depth-first channel sequence of a bvh joint: own channels in declared
order, then children in declared order; end sites contribute none. -/
def dfsChannels : BvhJoint → List BvhChannel
  | .mk _ _ cs children => cs ++ dfsChannelsChildren children
def dfsChannelsChildren : BvhJointChildren → List BvhChannel
  | .joints js => dfsChannelsList js
  | .endSite _ => []
def dfsChannelsList : List BvhJoint → List BvhChannel
  | [] => []
  | j :: js => dfsChannels j ++ dfsChannelsList js
end

mutual
/-- The depth-first channel sequence of a mocap joint. -/
def dfsMChannels : Joint → List Channel
  | .mk _ _ cs children => cs ++ dfsMChannelsChildren children
def dfsMChannelsChildren : JointChildren → List Channel
  | .joints js => dfsMChannelsList js
  | .endSite _ => []
def dfsMChannelsList : List Joint → List Channel
  | [] => []
  | j :: js => dfsMChannels j ++ dfsMChannelsList js
end

mutual
/-- The bvh skeleton determined by a mocap joint: exactly the skeleton part
of `build_bvh_joint` (name, offset, channel types, children shape). -/
def jointOfMocap : Joint → BvhJoint
  | .mk name offset chans children =>
    .mk name (build_bvh_offset offset) (chans.map (fun ch => bvhChannelOf ch.type_))
      (jointOfMocapChildren children)
def jointOfMocapChildren : JointChildren → BvhJointChildren
  | .joints js => .joints (jointOfMocapList js)
  | .endSite off => .endSite ⟨build_bvh_offset off⟩
def jointOfMocapList : List Joint → List BvhJoint
  | [] => []
  | j :: js => jointOfMocap j :: jointOfMocapList js
end

/-- Sequential column pushes (proof helper describing the frame evolution of
`build_bvh_joint`). -/
def pushColumns : List (List ℚ) → List (List ℚ) → Option (List (List ℚ))
  | frames, [] => some frames
  | frames, col :: cols =>
    match pushColumn frames col with
    | none => none
    | some frames' => pushColumns frames' cols

def defaultChannel : Channel := ⟨.translationX, 0, 0, [], []⟩

/-! ### Flat lemmas about the channel loops -/

lemma decVals_length (B : ℕ) (coeffs : List ℕ) :
    ∀ (rs w : List Int), (decVals B coeffs w rs).length = rs.length := by
  intro rs
  induction rs with
  | nil => intro w; rfl
  | cons r rs ih => intro w; simp [decVals, ih]

lemma decodeResiduals_length (coeffs : List ℕ) (rs : List Int) :
    (decodeResiduals coeffs rs).length = rs.length := by
  unfold decodeResiduals
  rw [decodeLpc_eq_decVals]
  exact decVals_length _ _ rs _

lemma reconstructChannel_length (ch : Channel) :
    (reconstructChannel ch).length = ch.residuals.length := by
  unfold reconstructChannel
  rw [List.length_map, decodeResiduals_length]

lemma processChannel_type (c : BvhChannel) (col : List ℚ) (ch : Channel)
    (h : processChannel c col = some ch) : ch.type_ = channelTypeOf c := by
  cases col with
  | nil =>
    rw [show processChannel c ([] : List ℚ) = none from rfl] at h
    exact Option.noConfusion h
  | cons v0 vs =>
    obtain ⟨ch', h', hty, _⟩ := processChannel_spec c v0 vs
    rw [h'] at h
    cases h
    exact hty

lemma processChannel_rlen (c : BvhChannel) (col : List ℚ) (ch : Channel)
    (h : processChannel c col = some ch) : ch.residuals.length = col.length := by
  cases col with
  | nil =>
    rw [show processChannel c ([] : List ℚ) = none from rfl] at h
    exact Option.noConfusion h
  | cons v0 vs =>
    obtain ⟨ch', h', _, _, _, hdec⟩ := processChannel_spec c v0 vs
    rw [h'] at h
    cases h
    have := congrArg List.length hdec
    rw [decodeResiduals_length, List.length_map] at this
    exact this

lemma getColumn_length : ∀ (frames : List (List ℚ)) (ci : ℕ) (col : List ℚ),
    getColumn frames ci = some col → col.length = frames.length := by
  intro frames
  induction frames with
  | nil =>
    intro ci col h
    simp only [getColumn, Option.some.injEq] at h
    subst h
    rfl
  | cons row rest ih =>
    intro ci col h
    cases hv : row[ci]? with
    | none => simp [getColumn, hv] at h
    | some v =>
      cases hc : getColumn rest ci with
      | none => simp [getColumn, hv, hc] at h
      | some col' =>
        simp only [getColumn, hv, hc, Option.some.injEq] at h
        subst h
        simp [ih ci col' hc]

lemma buildChannels_append (frames : List (List ℚ)) :
    ∀ (cs ds : List BvhChannel) (ci : ℕ) (l1 : List Channel) (ci1 : ℕ)
      (l2 : List Channel) (ci2 : ℕ),
      buildChannels frames cs ci = some (l1, ci1) →
      buildChannels frames ds ci1 = some (l2, ci2) →
      buildChannels frames (cs ++ ds) ci = some (l1 ++ l2, ci2) := by
  intro cs
  induction cs with
  | nil =>
    intro ds ci l1 ci1 l2 ci2 h1 h2
    simp only [buildChannels, Option.some.injEq, Prod.mk.injEq] at h1
    obtain ⟨hl, hc⟩ := h1
    subst hl; subst hc
    simpa using h2
  | cons c cs ih =>
    intro ds ci l1 ci1 l2 ci2 h1 h2
    cases hcol : getColumn frames ci with
    | none => simp [buildChannels, hcol] at h1
    | some col =>
      cases hch : processChannel c col with
      | none => simp [buildChannels, hcol, hch] at h1
      | some ch =>
        cases hrest : buildChannels frames cs (ci + 1) with
        | none => simp [buildChannels, hcol, hch, hrest] at h1
        | some p =>
          obtain ⟨rest, ci1'⟩ := p
          simp only [buildChannels, hcol, hch, hrest, Option.some.injEq, Prod.mk.injEq] at h1
          obtain ⟨hl, hc⟩ := h1
          subst hl; subst hc
          have hap := ih ds (ci + 1) rest ci1' l2 ci2 hrest h2
          simp only [List.cons_append, buildChannels, hcol, hch]
          rw [show List.append cs ds = cs ++ ds from rfl, hap]

lemma buildChannels_spec (frames : List (List ℚ)) :
    ∀ (cs : List BvhChannel) (ci : ℕ) (l : List Channel) (ci' : ℕ),
      buildChannels frames cs ci = some (l, ci') →
      ci' = ci + cs.length ∧ l.length = cs.length ∧
      l.map (fun ch => bvhChannelOf ch.type_) = cs ∧
      (∀ ch ∈ l, (reconstructChannel ch).length = frames.length) ∧
      ∀ k, k < cs.length →
        ∃ col, getColumn frames (ci + k) = some col ∧
          processChannel (cs.getD k BvhChannel.xPosition) col =
            some (l.getD k defaultChannel) := by
  intro cs
  induction cs with
  | nil =>
    intro ci l ci' h
    simp only [buildChannels, Option.some.injEq, Prod.mk.injEq] at h
    obtain ⟨hl, hc⟩ := h
    subst hl; subst hc
    refine ⟨by simp, by simp, by simp, by simp, ?_⟩
    intro k hk
    simp at hk
  | cons c cs ih =>
    intro ci l ci' h
    cases hcol : getColumn frames ci with
    | none => simp [buildChannels, hcol] at h
    | some col =>
      cases hch : processChannel c col with
      | none => simp [buildChannels, hcol, hch] at h
      | some ch =>
        cases hrest : buildChannels frames cs (ci + 1) with
        | none => simp [buildChannels, hcol, hch, hrest] at h
        | some p =>
          obtain ⟨rest, ci1⟩ := p
          simp only [buildChannels, hcol, hch, hrest, Option.some.injEq, Prod.mk.injEq] at h
          obtain ⟨hl, hc⟩ := h
          subst hl; subst hc
          obtain ⟨ha, hb, hc', hd, he⟩ := ih (ci + 1) rest ci1 hrest
          refine ⟨by simp only [List.length_cons]; omega, by simp [hb], ?_, ?_, ?_⟩
          · simp [hc', processChannel_type c col ch hch, bvhChannelOf_channelTypeOf]
          · intro x hx
            rcases List.mem_cons.mp hx with hx' | hx'
            · subst hx'
              rw [reconstructChannel_length, processChannel_rlen c col x hch]
              exact getColumn_length frames ci col hcol
            · exact hd x hx'
          · intro k hk
            cases k with
            | zero => exact ⟨col, by simpa using hcol, by simpa using hch⟩
            | succ k =>
              have hk' : k < cs.length := by simpa using hk
              obtain ⟨col', h1, h2⟩ := he k hk'
              refine ⟨col', ?_, by simpa using h2⟩
              rw [show ci + (k + 1) = ci + 1 + k by omega]
              exact h1

/-! ### Flat lemmas about the column pushes -/

lemma pushColumn_all : ∀ (frames : List (List ℚ)) (col : List ℚ),
    col.length = frames.length →
    pushColumn frames col = some (List.zipWith (fun row v => row ++ [v]) frames col) := by
  intro frames
  induction frames with
  | nil =>
    intro col h
    have hc : col = [] := List.eq_nil_of_length_eq_zero (by simpa using h)
    subst hc
    rfl
  | cons row rest ih =>
    intro col h
    cases col with
    | nil => simp at h
    | cons v vs =>
      have h' : vs.length = rest.length := by simpa using h
      simp [pushColumn, ih vs h']

lemma zipWith_push_getD : ∀ (frames : List (List ℚ)) (col : List ℚ) (f : ℕ),
    f < frames.length → col.length = frames.length →
    (List.zipWith (fun row v => row ++ [v]) frames col).getD f [] =
      frames.getD f [] ++ [col.getD f 0] := by
  intro frames
  induction frames with
  | nil => intro col f hf _; simp at hf
  | cons row rest ih =>
    intro col f hf h
    cases col with
    | nil => simp at h
    | cons v vs =>
      cases f with
      | zero => rfl
      | succ f =>
        have hf' : f < rest.length := by simpa using hf
        have h' : vs.length = rest.length := by simpa using h
        simpa using ih vs f hf' h'

lemma pushColumns_all : ∀ (cols frames : List (List ℚ)),
    (∀ col ∈ cols, col.length = frames.length) →
    ∃ FR, pushColumns frames cols = some FR ∧ FR.length = frames.length ∧
      ∀ f, f < frames.length →
        FR.getD f [] = frames.getD f [] ++ cols.map (fun col => col.getD f 0) := by
  intro cols
  induction cols with
  | nil => intro frames _; exact ⟨frames, rfl, rfl, by simp⟩
  | cons col cols ih =>
    intro frames hlen
    have hc : col.length = frames.length := hlen col (by simp)
    have hpc := pushColumn_all frames col hc
    have hF1len : (List.zipWith (fun row v => row ++ [v]) frames col).length = frames.length := by
      rw [List.length_zipWith]
      omega
    have hcols : ∀ c ∈ cols, c.length =
        (List.zipWith (fun row v => row ++ [v]) frames col).length := by
      intro c hcmem
      rw [hF1len]
      exact hlen c (by simp [hcmem])
    obtain ⟨FR, h1, h2, h3⟩ := ih _ hcols
    refine ⟨FR, ?_, by rw [h2, hF1len], ?_⟩
    · simp only [pushColumns, hpc, h1]
    · intro f hf
      rw [h3 f (by rw [hF1len]; exact hf), zipWith_push_getD frames col f hf hc]
      simp

lemma getD_replicate_nil : ∀ (N f : ℕ), (List.replicate N ([] : List ℚ)).getD f [] = [] := by
  intro N
  induction N with
  | zero => intro f; cases f <;> rfl
  | succ N ih =>
    intro f
    cases f with
    | zero => rfl
    | succ f => simpa [List.replicate] using ih f

lemma pushColumns_append : ∀ (cols1 cols2 frames f1 f2 : List (List ℚ)),
    pushColumns frames cols1 = some f1 → pushColumns f1 cols2 = some f2 →
    pushColumns frames (cols1 ++ cols2) = some f2 := by
  intro cols1
  induction cols1 with
  | nil =>
    intro cols2 frames f1 f2 h1 h2
    simp only [pushColumns, Option.some.injEq] at h1
    subst h1
    simpa using h2
  | cons col cols ih =>
    intro cols2 frames f1 f2 h1 h2
    cases hp : pushColumn frames col with
    | none => simp [pushColumns, hp] at h1
    | some F1 =>
      simp only [pushColumns, hp] at h1
      simp only [List.cons_append, pushColumns, hp]
      exact ih cols2 F1 f1 f2 h1 h2

lemma pushChannels_spec : ∀ (chs : List Channel) (frames : List (List ℚ))
      (bchans : List BvhChannel) (frames' : List (List ℚ)),
      pushChannels chs frames = some (bchans, frames') →
      bchans = chs.map (fun ch => bvhChannelOf ch.type_) ∧
      pushColumns frames (chs.map reconstructChannel) = some frames' := by
  intro chs
  induction chs with
  | nil =>
    intro frames b f h
    simp only [pushChannels, Option.some.injEq, Prod.mk.injEq] at h
    obtain ⟨hb, hf⟩ := h
    subst hb; subst hf
    exact ⟨by simp, rfl⟩
  | cons ch chs ih =>
    intro frames b f h
    cases hp : pushColumn frames (reconstructChannel ch) with
    | none => simp [pushChannels, hp] at h
    | some F1 =>
      cases hr : pushChannels chs F1 with
      | none => simp [pushChannels, hp, hr] at h
      | some p =>
        obtain ⟨rest, F2⟩ := p
        simp only [pushChannels, hp, hr, Option.some.injEq, Prod.mk.injEq] at h
        obtain ⟨hb, hf⟩ := h
        subst hb; subst hf
        obtain ⟨h1, h2⟩ := ih F1 rest F2 hr
        exact ⟨by simp [h1], by simp only [List.map_cons, pushColumns, hp, h2]⟩

/-! ### The encode-side tree walk: cursor arithmetic, skeleton erasure, and
the flattened channel characterization -/

mutual
theorem buildJoint_spec (j : BvhJoint) : ∀ (frames : List (List ℚ)) (ci : ℕ)
    (mj : Joint) (ci' : ℕ),
    build_joint frames j ci = some (mj, ci') →
    ci' = ci + (dfsChannels j).length ∧ jointOfMocap mj = j ∧
    buildChannels frames (dfsChannels j) ci =
      some (dfsMChannels mj, ci + (dfsChannels j).length) := by
  cases j with
  | mk name offset chans children =>
    intro frames ci mj ci' h
    cases hbc : buildChannels frames chans ci with
    | none => simp [build_joint, hbc] at h
    | some p =>
      obtain ⟨mchans, ci1⟩ := p
      cases hcc : buildChildren frames children ci1 with
      | none => simp [build_joint, hbc, hcc] at h
      | some q =>
        obtain ⟨mchildren, ci2⟩ := q
        simp only [build_joint, hbc, hcc, Option.some.injEq, Prod.mk.injEq] at h
        obtain ⟨hmj, hci⟩ := h
        subst hmj; subst hci
        obtain ⟨hca, _, hcc', _, _⟩ := buildChannels_spec frames chans ci mchans ci1 hbc
        obtain ⟨ha, hb, hc⟩ := buildChildren_spec children frames ci1 mchildren ci2 hcc
        refine ⟨?_, ?_, ?_⟩
        · simp only [dfsChannels, List.length_append]
          omega
        · simp only [jointOfMocap, jointOfMocapChildren, hcc', hb, build_bvh_offset]
        · have hap := buildChannels_append frames chans (dfsChannelsChildren children) ci
            mchans ci1 (dfsMChannelsChildren mchildren)
            (ci1 + (dfsChannelsChildren children).length) hbc hc
          simp only [dfsChannels, dfsMChannels, List.length_append]
          rw [show ci + (chans.length + (dfsChannelsChildren children).length) =
            ci1 + (dfsChannelsChildren children).length by omega]
          exact hap
theorem buildChildren_spec (children : BvhJointChildren) : ∀ (frames : List (List ℚ))
    (ci : ℕ) (mc : JointChildren) (ci' : ℕ),
    buildChildren frames children ci = some (mc, ci') →
    ci' = ci + (dfsChannelsChildren children).length ∧
    jointOfMocapChildren mc = children ∧
    buildChannels frames (dfsChannelsChildren children) ci =
      some (dfsMChannelsChildren mc, ci + (dfsChannelsChildren children).length) := by
  cases children with
  | joints js =>
    intro frames ci mc ci' h
    cases hl : buildJointList frames js ci with
    | none => simp [buildChildren, hl] at h
    | some p =>
      obtain ⟨mjs, ci1⟩ := p
      simp only [buildChildren, hl, Option.some.injEq, Prod.mk.injEq] at h
      obtain ⟨hmc, hci⟩ := h
      subst hmc; subst hci
      obtain ⟨ha, hb, hc⟩ := buildJointList_spec js frames ci mjs ci1 hl
      refine ⟨by simpa [dfsChannelsChildren] using ha, ?_, ?_⟩
      · simp only [jointOfMocapChildren, hb]
      · simpa [dfsChannelsChildren, dfsMChannelsChildren] using hc
  | endSite e =>
    intro frames ci mc ci' h
    simp only [buildChildren, Option.some.injEq, Prod.mk.injEq] at h
    obtain ⟨hmc, hci⟩ := h
    subst hmc; subst hci
    refine ⟨by simp [dfsChannelsChildren], ?_,
      by simp [dfsChannelsChildren, dfsMChannelsChildren, buildChannels]⟩
    simp only [jointOfMocapChildren, build_bvh_offset]
theorem buildJointList_spec (js : List BvhJoint) : ∀ (frames : List (List ℚ))
    (ci : ℕ) (mjs : List Joint) (ci' : ℕ),
    buildJointList frames js ci = some (mjs, ci') →
    ci' = ci + (dfsChannelsList js).length ∧
    jointOfMocapList mjs = js ∧
    buildChannels frames (dfsChannelsList js) ci =
      some (dfsMChannelsList mjs, ci + (dfsChannelsList js).length) := by
  cases js with
  | nil =>
    intro frames ci mjs ci' h
    simp only [buildJointList, Option.some.injEq, Prod.mk.injEq] at h
    obtain ⟨h1, h2⟩ := h
    subst h1; subst h2
    exact ⟨by simp [dfsChannelsList], by simp [jointOfMocapList],
      by simp [dfsChannelsList, dfsMChannelsList, buildChannels]⟩
  | cons j js =>
    intro frames ci mjs ci' h
    cases hj : build_joint frames j ci with
    | none => simp [buildJointList, hj] at h
    | some p =>
      obtain ⟨mj, ci1⟩ := p
      cases hl : buildJointList frames js ci1 with
      | none => simp [buildJointList, hj, hl] at h
      | some q =>
        obtain ⟨mrest, ci2⟩ := q
        simp only [buildJointList, hj, hl, Option.some.injEq, Prod.mk.injEq] at h
        obtain ⟨h1, h2⟩ := h
        subst h1; subst h2
        obtain ⟨ha1, hb1, hc1⟩ := buildJoint_spec j frames ci mj ci1 hj
        obtain ⟨ha2, hb2, hc2⟩ := buildJointList_spec js frames ci1 mrest ci2 hl
        refine ⟨?_, ?_, ?_⟩
        · simp only [dfsChannelsList, List.length_append]
          omega
        · simp only [jointOfMocapList, hb1, hb2]
        · rw [ha1] at hc2
          have hap := buildChannels_append frames (dfsChannels j) (dfsChannelsList js) ci
            (dfsMChannels mj) (ci + (dfsChannels j).length) (dfsMChannelsList mrest)
            (ci + (dfsChannels j).length + (dfsChannelsList js).length) hc1 hc2
          simp only [dfsChannelsList, dfsMChannelsList, List.length_append]
          rw [show ci + ((dfsChannels j).length + (dfsChannelsList js).length) =
            ci + (dfsChannels j).length + (dfsChannelsList js).length by omega]
          exact hap
end

/-! ### The decode-side tree walk: skeleton reconstruction and the frame
evolution as sequential column pushes -/

mutual
theorem buildBvhJoint_spec (mj : Joint) : ∀ (frames0 : List (List ℚ)) (bj : BvhJoint)
    (frames1 : List (List ℚ)),
    build_bvh_joint mj frames0 = some (bj, frames1) →
    bj = jointOfMocap mj ∧
    pushColumns frames0 ((dfsMChannels mj).map reconstructChannel) = some frames1 := by
  cases mj with
  | mk name offset chans children =>
    intro frames0 bj frames1 h
    cases hp : pushChannels chans frames0 with
    | none => simp [build_bvh_joint, hp] at h
    | some p =>
      obtain ⟨bchans, fr1⟩ := p
      cases hc : buildBvhChildren children fr1 with
      | none => simp [build_bvh_joint, hp, hc] at h
      | some q =>
        obtain ⟨bchildren, fr2⟩ := q
        simp only [build_bvh_joint, hp, hc, Option.some.injEq, Prod.mk.injEq] at h
        obtain ⟨hbj, hfr⟩ := h
        subst hbj; subst hfr
        obtain ⟨h1, h2⟩ := pushChannels_spec chans frames0 bchans fr1 hp
        obtain ⟨h3, h4⟩ := buildBvhChildren_spec children fr1 bchildren fr2 hc
        refine ⟨?_, ?_⟩
        · simp only [jointOfMocap, h1, h3]
        · have hap := pushColumns_append (chans.map reconstructChannel)
            ((dfsMChannelsChildren children).map reconstructChannel) frames0 fr1 fr2 h2 h4
          simpa only [dfsMChannels, List.map_append] using hap
theorem buildBvhChildren_spec (mc : JointChildren) : ∀ (frames0 : List (List ℚ))
    (bc : BvhJointChildren) (frames1 : List (List ℚ)),
    buildBvhChildren mc frames0 = some (bc, frames1) →
    bc = jointOfMocapChildren mc ∧
    pushColumns frames0 ((dfsMChannelsChildren mc).map reconstructChannel) = some frames1 := by
  cases mc with
  | joints js =>
    intro frames0 bc frames1 h
    cases hl : buildBvhJointList js frames0 with
    | none => simp [buildBvhChildren, hl] at h
    | some p =>
      obtain ⟨bjs, fr1⟩ := p
      simp only [buildBvhChildren, hl, Option.some.injEq, Prod.mk.injEq] at h
      obtain ⟨hbc, hfr⟩ := h
      subst hbc; subst hfr
      obtain ⟨h1, h2⟩ := buildBvhJointList_spec js frames0 bjs fr1 hl
      exact ⟨by simp only [jointOfMocapChildren, h1],
        by simpa [dfsMChannelsChildren] using h2⟩
  | endSite off =>
    intro frames0 bc frames1 h
    simp only [buildBvhChildren, Option.some.injEq, Prod.mk.injEq] at h
    obtain ⟨hbc, hfr⟩ := h
    subst hbc; subst hfr
    exact ⟨by simp only [jointOfMocapChildren],
      by simp [dfsMChannelsChildren, pushColumns]⟩
theorem buildBvhJointList_spec (mjs : List Joint) : ∀ (frames0 : List (List ℚ))
    (bjs : List BvhJoint) (frames1 : List (List ℚ)),
    buildBvhJointList mjs frames0 = some (bjs, frames1) →
    bjs = jointOfMocapList mjs ∧
    pushColumns frames0 ((dfsMChannelsList mjs).map reconstructChannel) = some frames1 := by
  cases mjs with
  | nil =>
    intro frames0 bjs frames1 h
    simp only [buildBvhJointList, Option.some.injEq, Prod.mk.injEq] at h
    obtain ⟨h1, h2⟩ := h
    subst h1; subst h2
    exact ⟨by simp [jointOfMocapList], by simp [dfsMChannelsList, pushColumns]⟩
  | cons mj mjs =>
    intro frames0 bjs frames1 h
    cases hj : build_bvh_joint mj frames0 with
    | none => simp [buildBvhJointList, hj] at h
    | some p =>
      obtain ⟨bj, fr1⟩ := p
      cases hl : buildBvhJointList mjs fr1 with
      | none => simp [buildBvhJointList, hj, hl] at h
      | some q =>
        obtain ⟨brest, fr2⟩ := q
        simp only [buildBvhJointList, hj, hl, Option.some.injEq, Prod.mk.injEq] at h
        obtain ⟨h1, h2⟩ := h
        subst h1; subst h2
        obtain ⟨ha1, hb1⟩ := buildBvhJoint_spec mj frames0 bj fr1 hj
        obtain ⟨ha2, hb2⟩ := buildBvhJointList_spec mjs fr1 brest fr2 hl
        refine ⟨by simp only [jointOfMocapList, ha1, ha2], ?_⟩
        have hap := pushColumns_append ((dfsMChannels mj).map reconstructChannel)
          ((dfsMChannelsList mjs).map reconstructChannel) frames0 fr1 fr2 hb1 hb2
        simpa only [dfsMChannelsList, List.map_append] using hap
end

lemma getD_eq_get {α : Type} (d : α) :
    ∀ (l : List α) (i : ℕ) (h : i < l.length), l.getD i d = l.get ⟨i, h⟩ := by
  intro l
  induction l with
  | nil => intro i h; simp at h
  | cons x l ih =>
    intro i h
    cases i with
    | zero => rfl
    | succ i => exact ih i (by simpa using h)

/-- C7: for every skeleton tree, the depth-first channel index `k` used by
the extractor to read matrix column `k` equals the position at which the
reassembler writes that channel's reconstructed values: after the round
trip, row `f`, position `k` of the output matrix holds frame `f` of the
reconstruction of input column `k`. -/
theorem channel_index_stability (b : Bvh) (m : Mocap) (out : Bvh)
    (hm : build_mocap b = some m) (ho : build_bvh m = some out)
    (hlen : b.motion.frames.length = b.motion.num_frames) :
    ∀ k, k < (dfsChannels b.hierarchy.root).length →
      ∃ col ch,
        getColumn b.motion.frames k = some col ∧
        processChannel ((dfsChannels b.hierarchy.root).getD k BvhChannel.xPosition) col =
          some ch ∧
        out.motion.frames.length = b.motion.frames.length ∧
        ∀ f, f < b.motion.frames.length →
          (out.motion.frames.getD f []).getD k 0 = (reconstructChannel ch).getD f 0 := by
  intro k hk
  cases hbj : build_joint b.motion.frames b.hierarchy.root 0 with
  | none => simp [build_mocap, hbj] at hm
  | some p =>
    obtain ⟨mroot, ciX⟩ := p
    simp only [build_mocap, hbj, Option.some.injEq] at hm
    subst hm
    simp only [build_bvh] at ho
    cases hbb : build_bvh_joint mroot (List.replicate b.motion.num_frames []) with
    | none => rw [hbb] at ho; exact Option.noConfusion ho
    | some q =>
      obtain ⟨broot, frames1⟩ := q
      rw [hbb] at ho
      simp only [Option.some.injEq] at ho
      subst ho
      obtain ⟨_, hjm, hbc⟩ :=
        buildJoint_spec b.hierarchy.root b.motion.frames 0 mroot ciX hbj
      obtain ⟨_, hlenM, _, hrll, hkk⟩ :=
        buildChannels_spec b.motion.frames (dfsChannels b.hierarchy.root) 0
          (dfsMChannels mroot) _ hbc
      obtain ⟨_, hpush⟩ :=
        buildBvhJoint_spec mroot (List.replicate b.motion.num_frames []) broot frames1 hbb
      have hcolslen : ∀ col ∈ (dfsMChannels mroot).map reconstructChannel,
          col.length = (List.replicate b.motion.num_frames ([] : List ℚ)).length := by
        intro col hcol
        rw [List.mem_map] at hcol
        obtain ⟨ch, hch, hcol'⟩ := hcol
        subst hcol'
        rw [List.length_replicate, hrll ch hch, hlen]
      obtain ⟨FR, hFR, hFRlen, hFRget⟩ :=
        pushColumns_all ((dfsMChannels mroot).map reconstructChannel)
          (List.replicate b.motion.num_frames []) hcolslen
      rw [hpush] at hFR
      injection hFR with hFR
      subst hFR
      obtain ⟨col, hcol, hch⟩ := hkk k hk
      refine ⟨col, (dfsMChannels mroot).getD k defaultChannel, by simpa using hcol,
        hch, ?_, ?_⟩
      · show frames1.length = _
        rw [hFRlen, List.length_replicate, hlen]
      · intro f hf
        have hfN : f < (List.replicate b.motion.num_frames ([] : List ℚ)).length := by
          rw [List.length_replicate, ← hlen]
          exact hf
        show (frames1.getD f []).getD k 0 = _
        rw [hFRget f hfN, getD_replicate_nil, List.nil_append]
        have hkc : k < ((dfsMChannels mroot).map reconstructChannel).length := by
          rw [List.length_map, hlenM]
          exact hk
        rw [getD_map_lt (fun col => col.getD f 0) ([] : List ℚ) (0 : ℚ) _ k hkc]
        have hkm : k < (dfsMChannels mroot).length := by rw [hlenM]; exact hk
        rw [getD_map_lt reconstructChannel defaultChannel ([] : List ℚ) _ k hkm]

/-- C8: the encode-then-decode pipeline hands the serializer an identical
skeleton tree (names, offsets, channel types in order, children shape),
unchanged frame count and frame time, and a frame-major matrix with
`num_frames` rows each of length equal to the total canonical channel
count. -/
theorem pipeline_preserves_shape (b : Bvh) (m : Mocap) (out : Bvh)
    (hm : build_mocap b = some m) (ho : build_bvh m = some out)
    (hlen : b.motion.frames.length = b.motion.num_frames) :
    out.hierarchy.root = b.hierarchy.root ∧
    out.motion.num_frames = b.motion.num_frames ∧
    out.motion.frame_time = b.motion.frame_time ∧
    out.motion.frames.length = b.motion.num_frames ∧
    ∀ row ∈ out.motion.frames, row.length = (dfsChannels b.hierarchy.root).length := by
  cases hbj : build_joint b.motion.frames b.hierarchy.root 0 with
  | none => simp [build_mocap, hbj] at hm
  | some p =>
    obtain ⟨mroot, ciX⟩ := p
    simp only [build_mocap, hbj, Option.some.injEq] at hm
    subst hm
    simp only [build_bvh] at ho
    cases hbb : build_bvh_joint mroot (List.replicate b.motion.num_frames []) with
    | none => rw [hbb] at ho; exact Option.noConfusion ho
    | some q =>
      obtain ⟨broot, frames1⟩ := q
      rw [hbb] at ho
      simp only [Option.some.injEq] at ho
      subst ho
      obtain ⟨_, hjm, hbc⟩ :=
        buildJoint_spec b.hierarchy.root b.motion.frames 0 mroot ciX hbj
      obtain ⟨_, hlenM, _, hrll, _⟩ :=
        buildChannels_spec b.motion.frames (dfsChannels b.hierarchy.root) 0
          (dfsMChannels mroot) _ hbc
      obtain ⟨hroot, hpush⟩ :=
        buildBvhJoint_spec mroot (List.replicate b.motion.num_frames []) broot frames1 hbb
      have hcolslen : ∀ col ∈ (dfsMChannels mroot).map reconstructChannel,
          col.length = (List.replicate b.motion.num_frames ([] : List ℚ)).length := by
        intro col hcol
        rw [List.mem_map] at hcol
        obtain ⟨ch, hch, hcol'⟩ := hcol
        subst hcol'
        rw [List.length_replicate, hrll ch hch, hlen]
      obtain ⟨FR, hFR, hFRlen, hFRget⟩ :=
        pushColumns_all ((dfsMChannels mroot).map reconstructChannel)
          (List.replicate b.motion.num_frames []) hcolslen
      rw [hpush] at hFR
      injection hFR with hFR
      subst hFR
      refine ⟨?_, rfl, rfl, ?_, ?_⟩
      · show broot = b.hierarchy.root
        rw [hroot, hjm]
      · show frames1.length = _
        rw [hFRlen, List.length_replicate]
      · intro row hrow
        obtain ⟨⟨f, hf⟩, hrow'⟩ := List.mem_iff_get.mp hrow
        have hfN : f < (List.replicate b.motion.num_frames ([] : List ℚ)).length := by
          rw [← hFRlen]
          exact hf
        have : row = frames1.getD f [] := by
          rw [getD_eq_get ([] : List ℚ) frames1 f hf, hrow']
        subst this
        rw [hFRget f hfN, getD_replicate_nil, List.nil_append, List.length_map,
          List.length_map, hlenM]

/-! ### Concrete round-trip witnesses: a nested tree with an end site -/

/-- Concrete evaluation of the pipeline on the one-frame channel `[7]`. -/
lemma processChannel_const7 :
    processChannel BvhChannel.yRotation [7] =
      some ⟨ChannelType.rotationY, 7, 0, [0], [0]⟩ := by
  rw [processChannel_cons]
  have hmm : minMaxFold [(7 : ℚ)] 7 = (7, 7) := by decide
  rw [hmm]
  norm_num
  decide

def witnessBvh : Bvh :=
  ⟨⟨.mk "a" ⟨0, 0, 0⟩ [.xPosition]
      (.joints [.mk "b" ⟨0, 0, 0⟩ [.yRotation] (.endSite ⟨⟨0, 0, 0⟩⟩)])⟩,
    ⟨1, 1, [[5, 7]]⟩⟩

def witnessMocap : Mocap :=
  ⟨1, 1, .mk "a" (0, 0, 0) [⟨.translationX, 5, 0, [0], [0]⟩]
      (.joints [.mk "b" (0, 0, 0) [⟨.rotationY, 7, 0, [0], [0]⟩] (.endSite (0, 0, 0))])⟩

def witnessOut : Bvh :=
  ⟨⟨.mk "a" ⟨0, 0, 0⟩ [.xPosition]
      (.joints [.mk "b" ⟨0, 0, 0⟩ [.yRotation] (.endSite ⟨⟨0, 0, 0⟩⟩)])⟩,
    ⟨1, 1, [[5, 7]]⟩⟩

lemma build_mocap_witness : build_mocap witnessBvh = some witnessMocap := by
  simp only [build_mocap, build_joint, buildChannels, buildChildren, buildJointList,
    witnessBvh, witnessMocap,
    show getColumn [[(5 : ℚ), 7]] 0 = some [5] from rfl,
    show getColumn [[(5 : ℚ), 7]] 1 = some [7] from rfl,
    processChannel_const5, processChannel_const7]

lemma reconstructChannel_const (t : ChannelType) (v : ℚ) :
    reconstructChannel ⟨t, v, 0, [0], [0]⟩ = [v] := by
  unfold reconstructChannel
  rw [show decodeResiduals [0] [0] = [0] from by decide]
  simp [dequantizeValue]

lemma build_bvh_witness : build_bvh witnessMocap = some witnessOut := by
  have hp1 : pushColumn [[]] [(5 : ℚ)] = some [[5]] := by simp [pushColumn]
  have hp2 : pushColumn [[(5 : ℚ)]] [(7 : ℚ)] = some [[5, 7]] := by simp [pushColumn]
  simp only [build_bvh, build_bvh_joint, pushChannels, buildBvhChildren, buildBvhJointList,
    witnessMocap, witnessOut, build_bvh_offset, bvhChannelOf, List.replicate,
    reconstructChannel_const, hp1, hp2]

/-- Witness for C7: in the nested witness tree, depth-first channel index 1
(the child joint's channel) reads input column 1 and its reconstruction is
written back at row position 1. -/
theorem channel_index_stability_witness :
    (build_mocap witnessBvh = some witnessMocap ∧
      build_bvh witnessMocap = some witnessOut ∧
      witnessBvh.motion.frames.length = witnessBvh.motion.num_frames ∧
      1 < (dfsChannels witnessBvh.hierarchy.root).length) ∧
    (∃ col ch,
      getColumn witnessBvh.motion.frames 1 = some col ∧
      processChannel ((dfsChannels witnessBvh.hierarchy.root).getD 1 BvhChannel.xPosition)
        col = some ch ∧
      witnessOut.motion.frames.length = witnessBvh.motion.frames.length ∧
      ∀ f, f < witnessBvh.motion.frames.length →
        (witnessOut.motion.frames.getD f []).getD 1 0 = (reconstructChannel ch).getD f 0) :=
  ⟨⟨build_mocap_witness, build_bvh_witness, rfl, by decide⟩,
    channel_index_stability witnessBvh witnessMocap witnessOut build_mocap_witness
      build_bvh_witness rfl 1 (by decide)⟩

/-- Witness for C8 on the nested witness tree. -/
theorem pipeline_preserves_shape_witness :
    (build_mocap witnessBvh = some witnessMocap ∧
      build_bvh witnessMocap = some witnessOut ∧
      witnessBvh.motion.frames.length = witnessBvh.motion.num_frames) ∧
    (witnessOut.hierarchy.root = witnessBvh.hierarchy.root ∧
      witnessOut.motion.num_frames = witnessBvh.motion.num_frames ∧
      witnessOut.motion.frame_time = witnessBvh.motion.frame_time ∧
      witnessOut.motion.frames.length = witnessBvh.motion.num_frames ∧
      ∀ row ∈ witnessOut.motion.frames,
        row.length = (dfsChannels witnessBvh.hierarchy.root).length) :=
  ⟨⟨build_mocap_witness, build_bvh_witness, rfl⟩,
    pipeline_preserves_shape witnessBvh witnessMocap witnessOut build_mocap_witness
      build_bvh_witness rfl⟩
